import Mathlib

/-!
# Verification of `pyze` (src/main.rs)

A shallow embedding of the pure core of `pyze`, a tool that extracts import
statements from a Python script, checks the non-standard ones against the PyPI
registry, and generates a Dockerfile.  Effectful boundaries (file reads, the
HTTP client, subprocess spawning) are modelled by explicit parameters:

* the registry is a function `String → Bool` giving, for each queried package
  name, whether the HTTPS GET to `https://pypi.org/pypi/<name>/json` came back
  with a success status (any network failure counts as `false`, exactly as the
  source swallows `Err` from `reqwest::get`);
* the script file is a list of its lines (Rust's `content.lines()`);
* subprocess spawning outcomes are explicit `SpawnResult` values.

Definitions keep the source's names where Lean allows it.  Line references
are to `src/main.rs`.
-/

/-- `enum PythonImport` (main.rs:26-30). -/
inductive PythonImport where
  | ModuleOnly : String → PythonImport
  | ModuleWithMember : String → String → PythonImport
deriving DecidableEq, Repr

/-! ## String helpers

Rust `str` operations (`trim`, `split`, `replace`, `split('.').next()`) are
modelled on `List Char`.  All definitions are structurally recursive (fuelled
where needed) so that the kernel can evaluate them on concrete inputs. -/

/-- Rust `str::trim_end`: drop trailing whitespace. -/
def trimRightChars (l : List Char) : List Char :=
  (l.reverse.dropWhile Char.isWhitespace).reverse

/-- Rust `str::trim`: drop leading and trailing whitespace. -/
def trimChars (l : List Char) : List Char :=
  (trimRightChars l).dropWhile Char.isWhitespace

/-- Leftmost occurrence of `pat` in `s`: returns `some (before, after)` where
`s = before ++ pat ++ after` and no occurrence of `pat` starts inside
`before`.  `none` when `pat` does not occur (the `pat = []` case is unused:
every call site passes a non-empty literal). -/
def splitFirst (pat : List Char) : List Char → Option (List Char × List Char)
  | [] => none
  | c :: rest =>
    if pat ≠ [] ∧ pat.isPrefixOf (c :: rest) then
      some ([], (c :: rest).drop pat.length)
    else
      (splitFirst pat rest).map (fun pr => (c :: pr.1, pr.2))

/-- Fuelled worker for `splitOnL`. -/
def splitOnAux : Nat → List Char → List Char → List (List Char)
  | 0, s, _ => [s]
  | fuel + 1, s, sep =>
    match splitFirst sep s with
    | none => [s]
    | some pr => pr.1 :: splitOnAux fuel pr.2 sep

/-- Rust `str::split(sep)` (collected): split on every non-overlapping
leftmost occurrence of `sep`. -/
def splitOnL (s sep : List Char) : List (List Char) :=
  splitOnAux (s.length + 1) s sep

/-- The line classifier inside `parse_python_file` (main.rs:76-93): trim the
line; `import ` prefix gives a module-only import of the trimmed remainder;
a `from ` prefix is split on the literal `" import "` and kept only when that
yields exactly two parts; everything else is skipped. -/
def parseLine (line : String) : Option PythonImport :=
  let t := trimChars line.data
  if "import ".data.isPrefixOf t then
    some (PythonImport.ModuleOnly ⟨trimChars (t.drop 7)⟩)
  else if "from ".data.isPrefixOf t then
    match splitOnL (t.drop 5) " import ".data with
    | [a, b] => some (PythonImport.ModuleWithMember ⟨trimChars a⟩ ⟨trimChars b⟩)
    | _ => none
  else none

/-- `parse_python_file` (main.rs:69-97), on the already-split lines of the
file: `filter_map` of the line classifier, order-preserving, duplicates
retained. -/
def parse_python_file (scriptLines : List String) : List PythonImport :=
  scriptLines.filterMap parseLine

/-! ## Template substitution -/

/-- Fuelled worker for `replaceAll`: scan left to right; on a match of `pat`
emit `rep` and continue after the matched occurrence (the emitted `rep` is
not rescanned), otherwise copy one character.  Fuel `s.length` suffices. -/
def replaceAllAux : Nat → List Char → List Char → List Char → List Char
  | 0, s, _, _ => s
  | fuel + 1, s, pat, rep =>
    if pat ≠ [] ∧ pat.isPrefixOf s then
      rep ++ replaceAllAux fuel (s.drop pat.length) pat rep
    else
      match s with
      | [] => []
      | c :: rest => c :: replaceAllAux fuel rest pat rep

/-- Rust `str::replace(pat, rep)`: replace every non-overlapping leftmost
occurrence (the `pat = []` case is unused: the placeholders are non-empty). -/
def replaceAll (s pat rep : List Char) : List Char :=
  replaceAllAux s.length s pat rep

/-- Number of non-overlapping leftmost occurrences of `pat` in `s` — the
number of replacements `replaceAll` performs.  Same scan as `replaceAllAux`. -/
def countOccurAux : Nat → List Char → List Char → Nat
  | 0, _, _ => 0
  | fuel + 1, s, pat =>
    if pat ≠ [] ∧ pat.isPrefixOf s then
      countOccurAux fuel (s.drop pat.length) pat + 1
    else
      match s with
      | [] => 0
      | _ :: rest => countOccurAux fuel rest pat

/-- Occurrence count entry point. -/
def countOccur (s pat : List Char) : Nat :=
  countOccurAux s.length s pat

/-- `String::replace` lifted to `String`. -/
def rustReplace (s pat rep : String) : String :=
  ⟨replaceAll s.data pat.data rep.data⟩

/-- The three placeholder literals of the template (main.rs:196-199). -/
def pythonVersionPlaceholder : String := "\x7b\x7bPYTHON_VERSION\x7d\x7d"

/-- `{{MODULES}}` placeholder. -/
def modulesPlaceholder : String := "\x7b\x7bMODULES\x7d\x7d"

/-- `{{SCRIPT_NAME}}` placeholder. -/
def scriptNamePlaceholder : String := "\x7b\x7bSCRIPT_NAME\x7d\x7d"

/-- The pure core of `generate_dockerfile` (main.rs:169-207): the template
(already resolved from `DOCKERFILE_TEMPLATE` or the embedded default — that
resolution and the final file write are I/O) with the three placeholders
substituted, in the source's order: version, then the space-joined module
list, then the script name. -/
def generate_dockerfile (python_version : String) (modules : List String)
    (script_name : String) (template : String) : String :=
  rustReplace
    (rustReplace (rustReplace template pythonVersionPlaceholder python_version)
      modulesPlaceholder (String.intercalate " " modules))
    scriptNamePlaceholder script_name

/-! ## Package-existence verification -/

/-- `package.split('.').next().unwrap()` (main.rs:158): the segment of the
name before its first `'.'` (the whole name when it has no dot). -/
def rootPackage (package : String) : String :=
  ⟨package.data.takeWhile (fun c => c != '.')⟩

/-- `check_package_exists` (main.rs:148-167), instrumented: given the
registry oracle, returns the verified name (the queried name if its GET
succeeds, else its root segment if that GET succeeds, else `none`) paired
with the list of names actually queried, in order. -/
def check_package_exists (registry : String → Bool) (package : String) :
    Option String × List String :=
  if registry package then
    (some package, [package])
  else
    let root := rootPackage package
    if registry root then (some root, [package, root])
    else (none, [package, root])

/-- One iteration of the verification loop in `main` (main.rs:217-237):
the modules pushed (zero or one, `if let Some(v) … push(v)` rendered as
`Option.toList`) and the registry queries issued for a single import
declaration.  The source binds each `check_package_exists` call once; the
textual repetition below refers to the same value. -/
def processImport (stdlibs : List String) (registry : String → Bool) :
    PythonImport → List String × List String
  | PythonImport.ModuleOnly module =>
    if stdlibs.contains module then ([], [])
    else
      ((check_package_exists registry module).1.toList,
       (check_package_exists registry module).2)
  | PythonImport.ModuleWithMember module object =>
    if stdlibs.contains module then ([], [])
    else
      match (check_package_exists registry (module ++ "." ++ object)).1 with
      | some v => ([v], (check_package_exists registry (module ++ "." ++ object)).2)
      | none =>
        ((check_package_exists registry module).1.toList,
         (check_package_exists registry (module ++ "." ++ object)).2
           ++ (check_package_exists registry module).2)

/-- The whole verification loop: modules pushed across all imports, in
source order. -/
def collectModules (stdlibs : List String) (registry : String → Bool)
    (imports : List PythonImport) : List String :=
  (imports.map (fun i => (processImport stdlibs registry i).1)).flatten

/-! ## Sort and dedup (main.rs:240-241)

Rust `Vec::sort` orders `String`s byte-lexicographically, which for valid
UTF-8 coincides with codepoint-lexicographic order; `Vec::dedup` then removes
consecutive equal entries.  `charsLe` is that order on `List Char`; sorting
with any correct algorithm yields the same list (the order is total and
antisymmetric, and duplicate strings are identical), so `List.insertionSort`
is used for its Mathlib lemmas. -/

/-- Lexicographic order on `List Char` by codepoint. -/
def charsLe : List Char → List Char → Bool
  | [], _ => true
  | _ :: _, [] => false
  | a :: as, b :: bs => if a = b then charsLe as bs else decide (a.toNat < b.toNat)

/-- The sort order used on module names. -/
def strLe (a b : String) : Prop := charsLe a.data b.data = true

instance : DecidableRel strLe :=
  fun a b => inferInstanceAs (Decidable (charsLe a.data b.data = true))

/-- Strict version of `strLe`, used only to state that the deduplicated
sorted list is strictly increasing. -/
def strLt (a b : String) : Prop := strLe a b ∧ a ≠ b

/-- `modules.sort()` (main.rs:240). -/
def sortModules (l : List String) : List String :=
  List.insertionSort strLe l

/-- `modules.dedup()` (main.rs:241): remove consecutive equal entries. -/
def dedupConsec : List String → List String
  | [] => []
  | [a] => [a]
  | a :: b :: rest =>
    if a == b then dedupConsec (b :: rest) else a :: dedupConsec (b :: rest)

/-- `modules.sort(); modules.dedup();` (main.rs:240-241). -/
def sortDedupModules (l : List String) : List String :=
  dedupConsec (sortModules l)

/-! ## Remapping and the pipeline -/

/-- `remap_modules` (main.rs:56-67).  The `HashMap` is modelled as an
association list with `HashMap::get` as `List.lookup` (exact-key match). -/
def remap_modules (modules : List String)
    (mappings : Option (List (String × String))) : List String :=
  modules.map (fun module =>
    ((mappings.bind (fun map => map.lookup module)).getD module))

/-- `let python_version = "3.10";` (main.rs:245). -/
def pythonVersion : String := "3.10"

/-- The straight-line pure pipeline of `main` (main.rs:210-255): extract,
verify and filter, sort and dedup, remap, substitute into the template.
Returns the generated Dockerfile content. -/
def runPipeline (mappings : Option (List (String × String)))
    (stdlibs : List String) (registry : String → Bool)
    (scriptLines : List String) (scriptName : String)
    (template : String) : String :=
  let imports := parse_python_file scriptLines
  let modules := collectModules stdlibs registry imports
  let deduped := sortDedupModules modules
  let remapped := remap_modules deduped mappings
  generate_dockerfile pythonVersion remapped scriptName template

/-! ## The container driver (main.rs:257-272) -/

/-- Outcome of one `Command::status()` call: whether the child could be
spawned (`status()` returns `Ok` exactly then), and its exit code when it
ran.  `Command::status` does NOT turn a non-zero exit into an `Err`. -/
structure SpawnResult where
  spawned : Bool
  exitCode : Int
deriving DecidableEq, Repr

/-- The docker build/run tail of `main` (main.rs:257-272).  First component:
whether the `docker run` invocation is attempted.  Second: `main`'s result —
`?` propagates only a spawn failure (wrapped with the build/run context
message); an `Ok(ExitStatus)` is discarded whatever the exit code. -/
def containerDriver (build runStep : SpawnResult) : Bool × Except String Unit :=
  if build.spawned = false then
    (false, Except.error "Failed to build Docker image")
  else if runStep.spawned = false then
    (true, Except.error "Failed to run Docker container")
  else
    (true, Except.ok ())

/-- The names an import declaration can possibly contribute to the verified
module list: the extracted name(s), their dotted combination, and root
segments thereof. -/
def importCandidates : PythonImport → List String
  | PythonImport.ModuleOnly m => [m, rootPackage m]
  | PythonImport.ModuleWithMember m o =>
    [m ++ "." ++ o, rootPackage (m ++ "." ++ o), m, rootPackage m]

/-! ## Lemmas about `replaceAll` and `splitFirst` -/

lemma replaceAllAux_nil (fuel : Nat) (pat rep : List Char) :
    replaceAllAux fuel [] pat rep = [] := by
  cases fuel with
  | zero => rfl
  | succ f =>
    have hg : ¬ (pat ≠ [] ∧ pat.isPrefixOf ([] : List Char)) := by
      rintro ⟨hne, hp⟩
      simp at hp
      exact hne hp
    simp only [replaceAllAux, if_neg hg]

lemma countOccurAux_nil (fuel : Nat) (pat : List Char) :
    countOccurAux fuel [] pat = 0 := by
  cases fuel with
  | zero => rfl
  | succ f =>
    have hg : ¬ (pat ≠ [] ∧ pat.isPrefixOf ([] : List Char)) := by
      rintro ⟨hne, hp⟩
      simp at hp
      exact hne hp
    simp only [countOccurAux, if_neg hg]

lemma replaceAllAux_fuel :
    ∀ (f1 f2 : Nat) (s pat rep : List Char), s.length ≤ f1 → s.length ≤ f2 →
      replaceAllAux f1 s pat rep = replaceAllAux f2 s pat rep := by
  intro f1
  induction f1 with
  | zero =>
    intro f2 s pat rep h1 _
    have hs : s = [] := List.eq_nil_of_length_eq_zero (Nat.le_zero.mp h1)
    subst hs
    rw [replaceAllAux_nil, replaceAllAux_nil]
  | succ f ih =>
    intro f2 s pat rep h1 h2
    cases s with
    | nil => rw [replaceAllAux_nil, replaceAllAux_nil]
    | cons c rest =>
      cases f2 with
      | zero => simp at h2
      | succ g =>
        by_cases hg : pat ≠ [] ∧ pat.isPrefixOf (c :: rest)
        · have hplen : 1 ≤ pat.length := by
            cases pat with
            | nil => exact absurd rfl hg.1
            | cons p ps => simp
          have hdlen : ((c :: rest).drop pat.length).length
              = (c :: rest).length - pat.length := List.length_drop _ _
          simp only [replaceAllAux, if_pos hg]
          congr 1
          apply ih
          · rw [hdlen]; simp only [List.length_cons] at h1 ⊢; omega
          · rw [hdlen]; simp only [List.length_cons] at h2 ⊢; omega
        · simp only [replaceAllAux, if_neg hg]
          congr 1
          apply ih
          · simp only [List.length_cons] at h1; omega
          · simp only [List.length_cons] at h2; omega

lemma countOccurAux_fuel :
    ∀ (f1 f2 : Nat) (s pat : List Char), s.length ≤ f1 → s.length ≤ f2 →
      countOccurAux f1 s pat = countOccurAux f2 s pat := by
  intro f1
  induction f1 with
  | zero =>
    intro f2 s pat h1 _
    have hs : s = [] := List.eq_nil_of_length_eq_zero (Nat.le_zero.mp h1)
    subst hs
    rw [countOccurAux_nil, countOccurAux_nil]
  | succ f ih =>
    intro f2 s pat h1 h2
    cases s with
    | nil => rw [countOccurAux_nil, countOccurAux_nil]
    | cons c rest =>
      cases f2 with
      | zero => simp at h2
      | succ g =>
        by_cases hg : pat ≠ [] ∧ pat.isPrefixOf (c :: rest)
        · have hdlen : ((c :: rest).drop pat.length).length
              = (c :: rest).length - pat.length := List.length_drop _ _
          have hplen : 1 ≤ pat.length := by
            cases pat with
            | nil => exact absurd rfl hg.1
            | cons p ps => simp
          simp only [countOccurAux, if_pos hg]
          congr 1
          apply ih
          · rw [hdlen]; simp only [List.length_cons] at h1 ⊢; omega
          · rw [hdlen]; simp only [List.length_cons] at h2 ⊢; omega
        · simp only [countOccurAux, if_neg hg]
          apply ih
          · simp only [List.length_cons] at h1; omega
          · simp only [List.length_cons] at h2; omega

/-- A match at the head of the string is replaced, and the scan continues
after it: substitution handles every occurrence, not only the first. -/
lemma replaceAll_append_left (pat b rep : List Char) (h : pat ≠ []) :
    replaceAll (pat ++ b) pat rep = rep ++ replaceAll b pat rep := by
  have hg : pat ≠ [] ∧ pat.isPrefixOf (pat ++ b) := ⟨h, by simp⟩
  unfold replaceAll
  rw [replaceAllAux_fuel (pat ++ b).length ((pat ++ b).length + 1) _ _ _
        (le_refl _) (Nat.le_succ _)]
  simp only [replaceAllAux, if_pos hg]
  congr 1
  rw [List.drop_left]
  exact replaceAllAux_fuel _ _ _ _ _ (by simp) (le_refl _)

lemma replaceAll_cons_nomatch (c : Char) (rest pat rep : List Char)
    (h : ¬ (pat ≠ [] ∧ pat.isPrefixOf (c :: rest))) :
    replaceAll (c :: rest) pat rep = c :: replaceAll rest pat rep := by
  unfold replaceAll
  simp only [List.length_cons, replaceAllAux, if_neg h]

/-- If `pat` does not occur in `s` (no leftmost occurrence exists), the
substitution leaves `s` unchanged, whatever the replacement. -/
lemma replaceAll_of_splitFirst_none :
    ∀ (s pat rep : List Char), splitFirst pat s = none → replaceAll s pat rep = s := by
  intro s
  induction s with
  | nil => intro pat rep _; rfl
  | cons c rest ih =>
    intro pat rep h
    by_cases hg : pat ≠ [] ∧ pat.isPrefixOf (c :: rest)
    · exfalso
      have heq : splitFirst pat (c :: rest)
          = some ([], (c :: rest).drop pat.length) := by
        simp only [splitFirst]
        rw [if_pos hg]
      rw [heq] at h
      cases h
    · have hmap : splitFirst pat (c :: rest)
          = Option.map (fun pr => (c :: pr.1, pr.2)) (splitFirst pat rest) := by
        simp only [splitFirst]
        rw [if_neg hg]
      have hrest : splitFirst pat rest = none := by
        cases hsf : splitFirst pat rest with
        | none => rfl
        | some pr =>
          rw [hmap, hsf] at h
          cases h
      rw [replaceAll_cons_nomatch c rest pat rep hg, ih pat rep hrest]

lemma replaceAll_length_aux :
    ∀ (fuel : Nat) (s pat rep : List Char), s.length ≤ fuel → pat ≠ [] →
      (replaceAllAux fuel s pat rep).length + countOccurAux fuel s pat * pat.length
        = s.length + countOccurAux fuel s pat * rep.length := by
  intro fuel
  induction fuel with
  | zero =>
    intro s pat rep _ _
    simp [replaceAllAux, countOccurAux]
  | succ f ih =>
    intro s pat rep h1 hp
    cases s with
    | nil => simp [replaceAllAux_nil, countOccurAux_nil]
    | cons c rest =>
      by_cases hg : pat ≠ [] ∧ pat.isPrefixOf (c :: rest)
      · have hple : pat.length ≤ (c :: rest).length := by
          have h2 : pat <+: c :: rest := by simpa using hg.2
          exact h2.length_le
        have hp1 : 1 ≤ pat.length := by
          cases pat with
          | nil => exact absurd rfl hp
          | cons p ps => simp
        have hdlen : ((c :: rest).drop pat.length).length
            = (c :: rest).length - pat.length := List.length_drop _ _
        have ihh := ih ((c :: rest).drop pat.length) pat rep
          (by rw [hdlen]; simp only [List.length_cons] at h1 ⊢; omega) hp
        simp only [replaceAllAux, countOccurAux, if_pos hg, List.length_append,
          Nat.add_mul, Nat.one_mul]
        generalize hX : countOccurAux f ((c :: rest).drop pat.length) pat * pat.length = X at ihh ⊢
        generalize hY : countOccurAux f ((c :: rest).drop pat.length) pat * rep.length = Y at ihh ⊢
        simp only [List.length_cons] at hple hdlen h1 ⊢
        omega
      · have ihh := ih rest pat rep (by simp only [List.length_cons] at h1; omega) hp
        simp only [replaceAllAux, countOccurAux, if_neg hg, List.length_cons]
        generalize hX : countOccurAux f rest pat * pat.length = X at ihh ⊢
        generalize hY : countOccurAux f rest pat * rep.length = Y at ihh ⊢
        omega

/-- Substitution replaces every occurrence: the output length changes by
exactly (number of occurrences) × (replacement length − pattern length). -/
lemma replaceAll_length (s pat rep : List Char) (h : pat ≠ []) :
    (replaceAll s pat rep).length + countOccur s pat * pat.length
      = s.length + countOccur s pat * rep.length :=
  replaceAll_length_aux s.length s pat rep (le_refl _) h

/-- `rustReplace` is the identity when the pattern does not occur. -/
lemma rustReplace_id (s pat rep : String)
    (h : splitFirst pat.data s.data = none) : rustReplace s pat rep = s := by
  unfold rustReplace
  rw [replaceAll_of_splitFirst_none s.data pat.data rep.data h]

/-! ## C1 — container driver ignores the build's exit status -/

/-- C1 (code_bug evidence): with the build subprocess spawning fine but
exiting with status 1 (and the run spawning and exiting 0), the driver still
attempts the `docker run` step and `main` returns `Ok` — the claimed
"report build failure, skip run, exit non-zero" behaviour does not happen,
because `Command::status()?` only propagates spawn failures. -/
theorem C1_buildFailureIgnored :
    containerDriver ⟨true, 1⟩ ⟨true, 0⟩ = (true, Except.ok ()) := rfl

/-! ## C2 — request count per import declaration -/

lemma check_package_exists_queries_le (registry : String → Bool) (pkg : String) :
    ((check_package_exists registry pkg).2).length ≤ 2 := by
  unfold check_package_exists
  by_cases h1 : registry pkg = true
  · simp [h1]
  · by_cases h2 : registry (rootPackage pkg) = true <;> simp [h1, h2]

/-- C2 counterexample: with an always-failing registry, the import
`from numpy import random` issues four requests (`numpy.random`, its root
`numpy`, then `numpy` and its root `numpy` again), not at most two; and a
module-only import whose name is not found issues two requests, not one. -/
theorem C2_counterexample :
    ((processImport [] (fun _ => false)
        (PythonImport.ModuleWithMember "numpy" "random")).2).length = 4 ∧
    ¬ ((processImport [] (fun _ => false)
        (PythonImport.ModuleWithMember "numpy" "random")).2).length ≤ 2 ∧
    ((processImport [] (fun _ => false)
        (PythonImport.ModuleOnly "foo")).2).length = 2 := by
  exact ⟨by decide, by decide, by decide⟩

/-- C2 (amended): each `check_package_exists` call issues at most two
requests, so an import declaration issues at most four — at most two for a
module-only import (one check), at most four for a module-with-member one
(up to two checks). -/
theorem C2_amended (stdlibs : List String) (registry : String → Bool)
    (imp : PythonImport) :
    ((processImport stdlibs registry imp).2).length ≤ 4 ∧
    (∀ m : String, imp = PythonImport.ModuleOnly m →
      ((processImport stdlibs registry imp).2).length ≤ 2) := by
  cases imp with
  | ModuleOnly m =>
    have hle := check_package_exists_queries_le registry m
    constructor
    · by_cases hc : stdlibs.contains m = true
      · have hm : m ∈ stdlibs := by simpa using hc
        simp [processImport, hm]
      · simp only [processImport, if_neg hc]
        omega
    · intro m' _
      by_cases hc : stdlibs.contains m = true
      · have hm : m ∈ stdlibs := by simpa using hc
        simp [processImport, hm]
      · simp only [processImport, if_neg hc]
        omega
  | ModuleWithMember m o =>
    have hle1 := check_package_exists_queries_le registry (m ++ "." ++ o)
    have hle2 := check_package_exists_queries_le registry m
    constructor
    · by_cases hc : stdlibs.contains m = true
      · have hm : m ∈ stdlibs := by simpa using hc
        simp [processImport, hm]
      · cases hr : (check_package_exists registry (m ++ "." ++ o)).1 with
        | some v =>
          simp only [processImport, if_neg hc, hr]
          omega
        | none =>
          simp only [processImport, if_neg hc, hr, List.length_append]
          omega
    · intro m' h
      cases h

/-- C2 witness: the amended bound instantiated — the module-only import
`foo` against an always-failing registry stays within two requests. -/
theorem C2_witness :
    ((processImport [] (fun _ => false)
        (PythonImport.ModuleOnly "foo")).2).length ≤ 2 :=
  (C2_amended [] (fun _ => false) (PythonImport.ModuleOnly "foo")).2 "foo" rfl

/-! ## C3 — template substitution replaces every occurrence -/

/-- C3 counterexample: a template holding the version placeholder twice has
both occurrences replaced — the output is `3.103.10`, not the result
`3.10{{PYTHON_VERSION}}` of an exactly-once substitution, and no occurrence
of the placeholder is left. -/
theorem C3_counterexample :
    generate_dockerfile "3.10" [] "s.py"
        "\x7b\x7bPYTHON_VERSION\x7d\x7d\x7b\x7bPYTHON_VERSION\x7d\x7d"
      = "3.103.10" ∧
    "3.103.10" ≠ "3.10\x7b\x7bPYTHON_VERSION\x7d\x7d" ∧
    splitFirst pythonVersionPlaceholder.data "3.103.10".data = none := by
  exact ⟨by decide, by decide, by decide⟩

/-- C3 (amended): substitution replaces every non-overlapping leftmost
occurrence of each of the three placeholders, not exactly one: a template
containing none of the placeholders is written out unchanged; the number of
replacements performed is the full occurrence count (length bookkeeping);
and a match is consumed and scanning continues after it. -/
theorem C3_amended (v sn : String) (mods : List String) (template : String) :
    (splitFirst pythonVersionPlaceholder.data template.data = none →
      splitFirst modulesPlaceholder.data template.data = none →
      splitFirst scriptNamePlaceholder.data template.data = none →
      generate_dockerfile v mods sn template = template) ∧
    (∀ (s pat rep : List Char), pat ≠ [] →
      (replaceAll s pat rep).length + countOccur s pat * pat.length
        = s.length + countOccur s pat * rep.length) ∧
    (∀ (b pat rep : List Char), pat ≠ [] →
      replaceAll (pat ++ b) pat rep = rep ++ replaceAll b pat rep) := by
  refine ⟨?_, fun s pat rep h => replaceAll_length s pat rep h,
    fun b pat rep h => replaceAll_append_left pat b rep h⟩
  intro h1 h2 h3
  unfold generate_dockerfile
  rw [rustReplace_id _ _ _ h1, rustReplace_id _ _ _ h2, rustReplace_id _ _ _ h3]

/-- C3 witness: the amended statement instantiated at a placeholder-free
template and at a concrete length computation. -/
theorem C3_witness :
    generate_dockerfile "3.10" ["requests"] "s.py" "FROM python"
      = "FROM python" ∧
    (replaceAll ['a', 'a'] ['a'] []).length
        + countOccur ['a', 'a'] ['a'] * (['a'] : List Char).length
      = (['a', 'a'] : List Char).length
        + countOccur ['a', 'a'] ['a'] * ([] : List Char).length := by
  have h := C3_amended "3.10" "s.py" ["requests"] "FROM python"
  exact ⟨h.1 (by decide) (by decide) (by decide),
    h.2.1 ['a', 'a'] ['a'] [] (by decide)⟩

/-! ## C6 — standard-library imports are skipped -/

/-- C6 counterexample: with standard set `["os"]` and a registry confirming
only `os`, the script `import os` / `import os.path` produces the
dependency list `["os"]` — the import `os` is itself skipped, but the
root-fallback of the non-standard name `os.path` queries and records the
standard name `os`, so `os` both gets a registry query and appears in the
final list, contrary to the claim. -/
theorem C6_counterexample :
    sortDedupModules (collectModules ["os"] (fun s => s == "os")
        [PythonImport.ModuleOnly "os", PythonImport.ModuleOnly "os.path"])
      = ["os"] ∧
    (["os"] : List String).contains "os" = true := by
  exact ⟨by decide, by decide⟩

/-- C6 (amended): an import whose module name is in the standard set is
itself skipped — processing it issues no registry query and contributes
nothing to the module list; a standard name can still enter the list as the
root-fallback of a different, dotted, non-standard import name. -/
theorem C6_amended (stdlibs : List String) (registry : String → Bool)
    (m o : String) (h : stdlibs.contains m = true) :
    processImport stdlibs registry (PythonImport.ModuleOnly m) = ([], []) ∧
    processImport stdlibs registry (PythonImport.ModuleWithMember m o)
      = ([], []) := by
  have hm : m ∈ stdlibs := by simpa using h
  exact ⟨by simp [processImport, hm], by simp [processImport, hm]⟩

/-- C6 witness: the amended skip behaviour at a concrete input. -/
theorem C6_witness :
    processImport ["os"] (fun _ => true) (PythonImport.ModuleOnly "os")
      = ([], []) ∧
    processImport ["os"] (fun _ => true)
        (PythonImport.ModuleWithMember "os" "path") = ([], []) :=
  C6_amended ["os"] (fun _ => true) "os" "path" (by decide)

/-! ## C8 — remapping -/

/-- C8: remapping is a pure total function applied entrywise: an absent or
empty mapping is the identity; with a mapping present, each output entry is
the mapped value of the corresponding input entry when its key is present
and the input entry itself otherwise; `{"a" ↦ "x"}` on `["a","b"]` gives
`["x","b"]`. -/
theorem C8_remap (modules : List String) (m : List (String × String)) :
    remap_modules modules none = modules ∧
    remap_modules modules (some []) = modules ∧
    List.Forall₂ (fun x y => y = ((m.lookup x).getD x)) modules
      (remap_modules modules (some m)) ∧
    remap_modules ["a", "b"] (some [("a", "x")]) = ["x", "b"] := by
  refine ⟨?_, ?_, ?_, by decide⟩
  · simp [remap_modules]
  · simp [remap_modules]
  · induction modules with
    | nil => exact List.Forall₂.nil
    | cons a tl ih =>
      simp only [remap_modules, List.map_cons] at ih ⊢
      exact List.Forall₂.cons rfl ih

/-! ## C9 — provenance of verified names -/

lemma check_package_exists_sound (registry : String → Bool) (package r : String)
    (h : (check_package_exists registry package).1 = some r) :
    r = package ∨ r = rootPackage package := by
  unfold check_package_exists at h
  by_cases h1 : registry package = true
  · simp [h1] at h
    exact Or.inl h.symm
  · by_cases h2 : registry (rootPackage package) = true
    · simp [h1, h2] at h
      exact Or.inr h.symm
    · simp [h1, h2] at h

lemma processImport_fst_subset (stdlibs : List String) (registry : String → Bool)
    (imp : PythonImport) (entry : String)
    (h : entry ∈ (processImport stdlibs registry imp).1) :
    entry ∈ importCandidates imp := by
  cases imp with
  | ModuleOnly m =>
    by_cases hc : stdlibs.contains m = true
    · have hm : m ∈ stdlibs := by simpa using hc
      simp [processImport, hm] at h
    · simp only [processImport, if_neg hc] at h
      cases hr : (check_package_exists registry m).1 with
      | none => rw [hr] at h; cases h
      | some v =>
        rw [hr] at h
        simp only [Option.toList_some, List.mem_singleton] at h
        subst h
        rcases check_package_exists_sound registry m entry hr with h' | h' <;>
          simp [importCandidates, h']
  | ModuleWithMember m o =>
    by_cases hc : stdlibs.contains m = true
    · have hm : m ∈ stdlibs := by simpa using hc
      simp [processImport, hm] at h
    · cases hr1 : (check_package_exists registry (m ++ "." ++ o)).1 with
      | some v =>
        simp only [processImport, if_neg hc, hr1, List.mem_singleton] at h
        subst h
        rcases check_package_exists_sound registry (m ++ "." ++ o) entry hr1
          with h' | h' <;> simp [importCandidates, h']
      | none =>
        simp only [processImport, if_neg hc, hr1] at h
        cases hr2 : (check_package_exists registry m).1 with
        | none => rw [hr2] at h; cases h
        | some v =>
          rw [hr2] at h
          simp only [Option.toList_some, List.mem_singleton] at h
          subst h
          rcases check_package_exists_sound registry m entry hr2 with h' | h' <;>
            simp [importCandidates, h']

/-- C9: a verified name returned by the existence check is either the
queried name or its root segment (prefix before the first dot); hence every
entry of the collected module list (before sort/dedup/remap) is, for some
declaration in the list, the extracted name, the dotted `module.member`
form, or the root segment of one of those. -/
theorem C9_provenance :
    (∀ (registry : String → Bool) (package r : String),
      (check_package_exists registry package).1 = some r →
      r = package ∨ r = rootPackage package) ∧
    (∀ (stdlibs : List String) (registry : String → Bool)
        (imports : List PythonImport) (entry : String),
      entry ∈ collectModules stdlibs registry imports →
      ∃ imp, imp ∈ imports ∧ entry ∈ importCandidates imp) := by
  refine ⟨check_package_exists_sound, ?_⟩
  intro stdlibs registry imports entry h
  unfold collectModules at h
  rw [List.mem_flatten] at h
  obtain ⟨l, hl, hel⟩ := h
  rw [List.mem_map] at hl
  obtain ⟨imp, himp, rfl⟩ := hl
  exact ⟨imp, himp, processImport_fst_subset stdlibs registry imp entry hel⟩

/-- C9 witness: querying `a.b` against a registry that only has `a` returns
the root segment. -/
theorem C9_witness :
    ("a" : String) = "a.b" ∨ ("a" : String) = rootPackage "a.b" :=
  C9_provenance.1 (fun s => s == "a") "a.b" "a" (by decide)

/-! ## C10 — the runtime version is the constant `3.10` -/

/-- C10: substituting into the probe template that is exactly the version
placeholder always yields `3.10`, whatever the configuration mapping, the
standard-library set, the registry, the script contents and the script
name: the substituted runtime version is the constant `"3.10"`. -/
theorem C10_constantVersion (mappings : Option (List (String × String)))
    (stdlibs : List String) (registry : String → Bool)
    (scriptLines : List String) (scriptName : String) :
    runPipeline mappings stdlibs registry scriptLines scriptName
      pythonVersionPlaceholder = "3.10" := by
  show generate_dockerfile pythonVersion
      (remap_modules (sortDedupModules (collectModules stdlibs registry
        (parse_python_file scriptLines))) mappings)
      scriptName pythonVersionPlaceholder = "3.10"
  unfold generate_dockerfile
  have h1 : rustReplace pythonVersionPlaceholder pythonVersionPlaceholder
      pythonVersion = "3.10" := by decide
  have h2 : ∀ rep, rustReplace "3.10" modulesPlaceholder rep = "3.10" :=
    fun rep => rustReplace_id _ _ _ (by decide)
  have h3 : ∀ rep, rustReplace "3.10" scriptNamePlaceholder rep = "3.10" :=
    fun rep => rustReplace_id _ _ _ (by decide)
  rw [h1, h2, h3]

/-! ## C7 — sort + dedup

Order lemmas for `charsLe` (the byte-lexicographic order `Vec::sort` uses on
`String`s). -/

lemma Char_toNat_inj {a b : Char} (h : a.toNat = b.toNat) : a = b := by
  have h' : a.val.toNat = b.val.toNat := h
  exact Char.ext (UInt32.toNat.inj h')

lemma charsLe_total : ∀ x y : List Char, charsLe x y = true ∨ charsLe y x = true := by
  intro x
  induction x with
  | nil => intro y; exact Or.inl rfl
  | cons a as ih =>
    intro y
    cases y with
    | nil => exact Or.inr rfl
    | cons b bs =>
      by_cases hab : a = b
      · subst hab
        rcases ih bs with h | h
        · exact Or.inl (by simp [charsLe, h])
        · exact Or.inr (by simp [charsLe, h])
      · rcases Nat.lt_or_ge a.toNat b.toNat with h | h
        · exact Or.inl (by simp [charsLe, hab, h])
        · have hne : a.toNat ≠ b.toNat := fun he => hab (Char_toNat_inj he)
          have hlt : b.toNat < a.toNat := by omega
          have hba : b ≠ a := fun he => hab he.symm
          exact Or.inr (by simp [charsLe, hba, hlt])

lemma charsLe_trans : ∀ x y z : List Char,
    charsLe x y = true → charsLe y z = true → charsLe x z = true := by
  intro x
  induction x with
  | nil => intro y z _ _; rfl
  | cons a as ih =>
    intro y z hxy hyz
    cases y with
    | nil => simp [charsLe] at hxy
    | cons b bs =>
      cases z with
      | nil => simp [charsLe] at hyz
      | cons c cs =>
        by_cases hab : a = b
        · subst hab
          by_cases hac : a = c
          · subst hac
            simp only [charsLe, if_pos rfl] at hxy hyz ⊢
            exact ih bs cs hxy hyz
          · simp [charsLe, hac] at hyz ⊢
            exact hyz
        · by_cases hbc : b = c
          · subst hbc
            simp [charsLe, hab] at hxy ⊢
            exact hxy
          · simp [charsLe, hab] at hxy
            simp [charsLe, hbc] at hyz
            have hac : a ≠ c := by
              intro he
              subst he
              omega
            simp [charsLe, hac]
            omega

lemma charsLe_antisymm : ∀ x y : List Char,
    charsLe x y = true → charsLe y x = true → x = y := by
  intro x
  induction x with
  | nil =>
    intro y _ hyx
    cases y with
    | nil => rfl
    | cons b bs => simp [charsLe] at hyx
  | cons a as ih =>
    intro y hxy hyx
    cases y with
    | nil => simp [charsLe] at hxy
    | cons b bs =>
      by_cases hab : a = b
      · subst hab
        simp only [charsLe, if_pos rfl] at hxy hyx
        rw [ih bs hxy hyx]
      · have hba : b ≠ a := fun he => hab he.symm
        simp [charsLe, hab] at hxy
        simp [charsLe, hba] at hyx
        omega

instance : IsTotal String strLe := ⟨fun a b => charsLe_total a.data b.data⟩

instance : IsTrans String strLe := ⟨fun a b c => charsLe_trans a.data b.data c.data⟩

instance : IsAntisymm String strLe :=
  ⟨fun a b h1 h2 => String.ext (charsLe_antisymm a.data b.data h1 h2)⟩

instance : IsIrrefl String strLt := ⟨fun _ h => h.2 rfl⟩

lemma mem_dedupConsec : ∀ (l : List String) (x : String),
    x ∈ dedupConsec l ↔ x ∈ l := by
  intro l
  induction l with
  | nil => intro x; simp [dedupConsec]
  | cons a tl ih =>
    intro x
    cases tl with
    | nil => simp [dedupConsec]
    | cons b rest =>
      by_cases hab : a = b
      · subst hab
        rw [show dedupConsec (a :: a :: rest) = dedupConsec (a :: rest) from by
          simp [dedupConsec]]
        rw [ih x]
        simp only [List.mem_cons]
        tauto
      · have hf : (a == b) = false := by simp [hab]
        rw [show dedupConsec (a :: b :: rest) = a :: dedupConsec (b :: rest) from by
          simp [dedupConsec, hf]]
        simp only [List.mem_cons, ih x]

lemma sorted_dedupConsec : ∀ (l : List String),
    l.Sorted strLe → (dedupConsec l).Sorted strLt := by
  intro l
  induction l with
  | nil => intro _; simp [dedupConsec]
  | cons a tl ih =>
    intro hs
    rw [List.sorted_cons] at hs
    cases tl with
    | nil => simp [dedupConsec]
    | cons b rest =>
      by_cases hab : a = b
      · subst hab
        rw [show dedupConsec (a :: a :: rest) = dedupConsec (a :: rest) from by
          simp [dedupConsec]]
        exact ih hs.2
      · have hf : (a == b) = false := by simp [hab]
        rw [show dedupConsec (a :: b :: rest) = a :: dedupConsec (b :: rest) from by
          simp [dedupConsec, hf]]
        rw [List.sorted_cons]
        refine ⟨?_, ih hs.2⟩
        intro x hx
        have hxmem : x ∈ b :: rest := (mem_dedupConsec (b :: rest) x).mp hx
        refine ⟨hs.1 x hxmem, ?_⟩
        rcases List.mem_cons.mp hxmem with rfl | hxr
        · exact hab
        · intro he
          have h1 : strLe a b := hs.1 b (List.mem_cons_self _ _)
          have hsr := List.sorted_cons.mp hs.2
          have h2 : strLe b x := hsr.1 x hxr
          rw [← he] at h2
          exact hab (String.ext (charsLe_antisymm a.data b.data h1 h2))

/-- C7: the sort+dedup step is order-independent — any permutation of the
collected module list yields the same result — it preserves exactly the set
of entries (exact-string membership), its output has no duplicates, and
`["b","a","a"]` becomes `["a","b"]`. -/
theorem C7_sortDedup (l l' : List String) (h : l.Perm l') :
    sortDedupModules l = sortDedupModules l' ∧
    (∀ s, s ∈ sortDedupModules l ↔ s ∈ l) ∧
    (sortDedupModules l).Nodup ∧
    sortDedupModules ["b", "a", "a"] = ["a", "b"] := by
  have hsorted : ∀ m : List String, (sortModules m).Sorted strLe :=
    fun m => List.sorted_insertionSort strLe m
  have hperm : ∀ m : List String, (sortModules m).Perm m :=
    fun m => List.perm_insertionSort strLe m
  refine ⟨?_, ?_, ?_, by decide⟩
  · have heq : sortModules l = sortModules l' :=
      List.eq_of_perm_of_sorted (((hperm l).trans h).trans (hperm l').symm)
        (hsorted l) (hsorted l')
    unfold sortDedupModules
    rw [heq]
  · intro s
    unfold sortDedupModules
    rw [mem_dedupConsec]
    exact (hperm l).mem_iff
  · exact List.Sorted.nodup (sorted_dedupConsec (sortModules l) (hsorted l))

/-- C7 witness: the two orderings of `["b","a"]` produce the same output. -/
theorem C7_witness :
    sortDedupModules ["b", "a"] = sortDedupModules ["a", "b"] :=
  (C7_sortDedup ["b", "a"] ["a", "b"] (List.Perm.swap "a" "b" [])).1

/-! ## C4 — module-with-member resolution order -/

lemma takeWhile_append_dot :
    ∀ (l r : List Char), (∀ c ∈ l, c ≠ '.') →
      (l ++ '.' :: r).takeWhile (fun c => c != '.') = l := by
  intro l
  induction l with
  | nil =>
    intro r _
    simp [List.takeWhile_cons]
  | cons c t ih =>
    intro r h
    have hc : c ≠ '.' := h c (List.mem_cons_self _ _)
    simp only [List.cons_append, List.takeWhile_cons, bne_iff_ne, ne_eq, hc,
      not_false_eq_true, if_true]
    rw [ih r (fun c hc' => h c (List.mem_cons_of_mem _ hc'))]

/-- The root of `module ++ "." ++ object` is `module` when `module` itself
contains no dot. -/
lemma rootPackage_cat (module object : String)
    (h : ∀ c ∈ module.data, c ≠ '.') :
    rootPackage (module ++ "." ++ object) = module := by
  unfold rootPackage
  have hdata : (module ++ "." ++ object).data = module.data ++ '.' :: object.data := by
    simp [String.data_append]
  rw [hdata, takeWhile_append_dot module.data object.data h]

/-- The root of a dot-free name is the name itself. -/
lemma rootPackage_self (m : String) (h : ∀ c ∈ m.data, c ≠ '.') :
    rootPackage m = m := by
  unfold rootPackage
  have : m.data.takeWhile (fun c => c != '.') = m.data := by
    rw [List.takeWhile_eq_self_iff]
    intro c hc
    simpa using h c hc
  rw [this]

/-- C4 counterexample: for `from a.b import c` (a dotted module name) with a
registry that has only `a`, the second query is `a` — the root of the dotted
name — not the module name `a.b`, and the recorded dependency is `a`, which
is neither the dotted name `a.b.c` nor the module name `a.b`; the claim's
"dotted form, then the module name alone, record whichever resolves first"
is wrong for dotted module names. -/
theorem C4_counterexample :
    (processImport [] (fun s => s == "a")
        (PythonImport.ModuleWithMember "a.b" "c")).1 = ["a"] ∧
    (processImport [] (fun s => s == "a")
        (PythonImport.ModuleWithMember "a.b" "c")).2 = ["a.b.c", "a"] ∧
    ("a" : String) ≠ "a.b.c" ∧ ("a" : String) ≠ "a.b" := by
  exact ⟨by decide, by decide, by decide, by decide⟩

/-- C4 (amended): for a module-with-member import whose module name is
outside the standard set and contains no dot, the verifier behaves as the
claim says: it queries the dotted `module.member`; if that resolves it is
recorded, otherwise the module name alone is queried (as the root fallback
of the first check) and recorded if it resolves; if neither resolves the
remaining (redundant) queries also target the module name and nothing is
recorded.  In particular `from numpy import random`, with `numpy.random`
unconfirmed but `numpy` confirmed, records `numpy`. -/
theorem C4_amended (registry : String → Bool) (stdlibs : List String)
    (module object : String)
    (hstd : stdlibs.contains module = false)
    (hdot : module.data.all (fun c => c != '.') = true) :
    (processImport stdlibs registry
        (PythonImport.ModuleWithMember module object)).1 =
      (if registry (module ++ "." ++ object) then [module ++ "." ++ object]
       else if registry module then [module] else []) ∧
    (processImport stdlibs registry
        (PythonImport.ModuleWithMember module object)).2 =
      (if registry (module ++ "." ++ object) then [module ++ "." ++ object]
       else if registry module then [module ++ "." ++ object, module]
       else [module ++ "." ++ object, module, module, module]) := by
  have hne : ∀ c ∈ module.data, c ≠ '.' := by
    intro c hc
    have := List.all_eq_true.mp hdot c hc
    simpa using this
  have hroot : rootPackage (module ++ "." ++ object) = module :=
    rootPackage_cat module object hne
  have hrootm : rootPackage module = module := rootPackage_self module hne
  have hmem : module ∉ stdlibs := by simpa using hstd
  cases hf : registry (module ++ "." ++ object) with
  | true =>
    constructor <;>
      simp [processImport, hmem, check_package_exists, hf]
  | false =>
    cases hm : registry module with
    | true =>
      constructor <;>
        simp [processImport, hmem, check_package_exists, hf, hroot, hm]
    | false =>
      constructor <;>
        simp [processImport, hmem, check_package_exists, hf, hroot, hrootm, hm]

/-- C4 witness: the `numpy` scenario — registry confirms `requests` and
`numpy` but not `numpy.random`; `from numpy import random` records `numpy`. -/
theorem C4_witness :
    (processImport ["os"] (fun s => s == "numpy" || s == "requests")
        (PythonImport.ModuleWithMember "numpy" "random")).1 = ["numpy"] := by
  have h := (C4_amended (fun s => s == "numpy" || s == "requests") ["os"]
    "numpy" "random" (by decide) (by decide)).1
  rw [h]
  decide

/-! ## C5 — the line parser -/

lemma splitFirst_append (x y sepRest : List Char) (c0 : Char)
    (hx : ∀ c ∈ x, c ≠ c0) :
    splitFirst (c0 :: sepRest) (x ++ ((c0 :: sepRest) ++ y)) = some (x, y) := by
  induction x with
  | nil =>
    simp only [List.nil_append, List.cons_append]
    have hg : (c0 :: sepRest) ≠ [] ∧
        (c0 :: sepRest).isPrefixOf (c0 :: (sepRest ++ y)) := by
      refine ⟨by simp, ?_⟩
      simp
    have heq : splitFirst (c0 :: sepRest) (c0 :: (sepRest ++ y))
        = some ([], (c0 :: (sepRest ++ y)).drop (c0 :: sepRest).length) := by
      simp only [splitFirst]
      rw [if_pos hg]
    rw [heq]
    have hdrop : (c0 :: (sepRest ++ y)).drop (c0 :: sepRest).length = y := by
      rw [show c0 :: (sepRest ++ y) = (c0 :: sepRest) ++ y from rfl]
      exact List.drop_left _ _
    rw [hdrop]
  | cons c x' ih =>
    have hc : c ≠ c0 := hx c (List.mem_cons_self _ _)
    rw [show (c :: x') ++ ((c0 :: sepRest) ++ y)
        = c :: (x' ++ ((c0 :: sepRest) ++ y)) from rfl]
    have hg : ¬ ((c0 :: sepRest) ≠ [] ∧
        (c0 :: sepRest).isPrefixOf (c :: (x' ++ ((c0 :: sepRest) ++ y)))) := by
      rintro ⟨_, hp⟩
      have hp' : (c0 :: sepRest) <+: c :: (x' ++ ((c0 :: sepRest) ++ y)) := by
        simpa using hp
      rcases List.cons_prefix_cons.mp hp' with ⟨he, _⟩
      exact hc he.symm
    have heq : splitFirst (c0 :: sepRest) (c :: (x' ++ ((c0 :: sepRest) ++ y)))
        = Option.map (fun pr => (c :: pr.1, pr.2))
            (splitFirst (c0 :: sepRest) (x' ++ ((c0 :: sepRest) ++ y))) := by
      simp only [splitFirst]
      rw [if_neg hg]
    rw [heq, ih (fun d hd => hx d (List.mem_cons_of_mem _ hd))]
    rfl

lemma splitFirst_none_of_ne (sepRest : List Char) (c0 : Char) :
    ∀ (y : List Char), (∀ c ∈ y, c ≠ c0) →
      splitFirst (c0 :: sepRest) y = none := by
  intro y
  induction y with
  | nil => intro _; rfl
  | cons c y' ih =>
    intro h
    have hc : c ≠ c0 := h c (List.mem_cons_self _ _)
    have hg : ¬ ((c0 :: sepRest) ≠ [] ∧ (c0 :: sepRest).isPrefixOf (c :: y')) := by
      rintro ⟨_, hp⟩
      have hp' : (c0 :: sepRest) <+: c :: y' := by simpa using hp
      rcases List.cons_prefix_cons.mp hp' with ⟨he, _⟩
      exact hc he.symm
    have heq : splitFirst (c0 :: sepRest) (c :: y')
        = Option.map (fun pr => (c :: pr.1, pr.2)) (splitFirst (c0 :: sepRest) y') := by
      simp only [splitFirst]
      rw [if_neg hg]
    rw [heq, ih (fun d hd => h d (List.mem_cons_of_mem _ hd))]
    rfl

lemma splitOnAux_of_none (fuel : Nat) (s sep : List Char)
    (h : splitFirst sep s = none) : splitOnAux fuel s sep = [s] := by
  cases fuel with
  | zero => rfl
  | succ f => simp [splitOnAux, h]

/-- When `sep` starts with a character appearing neither in `x` nor in `y`,
splitting `x ++ sep ++ y` on `sep` yields exactly the two parts `x`, `y`. -/
lemma splitOnL_two (x y sepRest : List Char) (c0 : Char)
    (hx : ∀ c ∈ x, c ≠ c0) (hy : ∀ c ∈ y, c ≠ c0) :
    splitOnL (x ++ ((c0 :: sepRest) ++ y)) (c0 :: sepRest) = [x, y] := by
  unfold splitOnL
  simp only [splitOnAux, splitFirst_append x y sepRest c0 hx]
  rw [splitOnAux_of_none _ _ _ (splitFirst_none_of_ne sepRest c0 y hy)]

lemma dropWhile_ne_nil_of_exists (l : List Char)
    (h : ∃ c ∈ l, ¬ Char.isWhitespace c) :
    l.dropWhile Char.isWhitespace ≠ [] := by
  intro hnil
  obtain ⟨c, hc, hnw⟩ := h
  exact hnw (List.dropWhile_eq_nil_iff.mp hnil c hc)

lemma trimRightChars_append (a b : List Char)
    (hb : ∃ c ∈ b, ¬ Char.isWhitespace c) :
    trimRightChars (a ++ b) = a ++ trimRightChars b := by
  unfold trimRightChars
  rw [List.reverse_append, List.dropWhile_append]
  have hne : b.reverse.dropWhile Char.isWhitespace ≠ [] := by
    apply dropWhile_ne_nil_of_exists
    obtain ⟨c, hc, hnw⟩ := hb
    exact ⟨c, List.mem_reverse.mpr hc, hnw⟩
  rw [if_neg (by simpa using hne)]
  rw [List.reverse_append, List.reverse_reverse]

lemma trimRightChars_eq_self (y : List Char)
    (h : ∀ c ∈ y, ¬ Char.isWhitespace c) :
    trimRightChars y = y := by
  unfold trimRightChars
  have hrev : y.reverse.dropWhile Char.isWhitespace = y.reverse := by
    cases hyr : y.reverse with
    | nil => rfl
    | cons c t =>
      have hc : c ∈ y := by
        rw [← List.mem_reverse, hyr]
        exact List.mem_cons_self _ _
      rw [List.dropWhile_cons_of_neg (h c hc)]
  rw [hrev, List.reverse_reverse]

lemma trimChars_trimRightChars (l : List Char) :
    trimChars (trimRightChars l) = trimChars l := by
  unfold trimChars
  have hidem : trimRightChars (trimRightChars l) = trimRightChars l := by
    unfold trimRightChars
    rw [List.reverse_reverse, List.dropWhile_idempotent]
  rw [hidem]

lemma trimChars_import_append (rest : List Char)
    (h : ∃ c ∈ rest, ¬ Char.isWhitespace c) :
    trimChars ("import ".data ++ rest) = "import ".data ++ trimRightChars rest := by
  unfold trimChars
  rw [trimRightChars_append "import ".data rest h]
  rw [show "import ".data ++ trimRightChars rest
      = 'i' :: ("mport ".data ++ trimRightChars rest) from rfl]
  rw [List.dropWhile_cons_of_neg (by decide)]

lemma trimChars_from_line (x y : List Char)
    (hyw : ∀ c ∈ y, ¬ Char.isWhitespace c) (hyne : y ≠ []) :
    trimChars ("from ".data ++ (x ++ (" import ".data ++ y)))
      = "from ".data ++ (x ++ (" import ".data ++ y)) := by
  unfold trimChars
  have hex : ∃ c ∈ y, ¬ Char.isWhitespace c := by
    cases y with
    | nil => exact absurd rfl hyne
    | cons c t => exact ⟨c, List.mem_cons_self _ _, hyw c (List.mem_cons_self _ _)⟩
  have hassoc : "from ".data ++ (x ++ (" import ".data ++ y))
      = (("from ".data ++ x) ++ " import ".data) ++ y := by
    simp [List.append_assoc]
  rw [hassoc, trimRightChars_append _ y hex, trimRightChars_eq_self y hyw]
  rw [show (("from ".data ++ x) ++ " import ".data) ++ y
      = 'f' :: ((("rom ".data ++ x) ++ " import ".data) ++ y) from rfl]
  rw [List.dropWhile_cons_of_neg (by decide)]

lemma fromLine_not_import (t : List Char)
    (h : "from ".data.isPrefixOf t = true) :
    "import ".data.isPrefixOf t = false := by
  have h' : "from ".data <+: t := by simpa using h
  obtain ⟨t', rfl⟩ := h'
  cases h3 : "import ".data.isPrefixOf ("from ".data ++ t') with
  | false => rfl
  | true =>
    exfalso
    simp at h3

lemma parseLine_import_case (line : String)
    (h : "import ".data.isPrefixOf (trimChars line.data) = true) :
    parseLine line = some (PythonImport.ModuleOnly
      ⟨trimChars ((trimChars line.data).drop 7)⟩) := by
  unfold parseLine
  rw [if_pos h]

lemma parseLine_from_case (line : String) (a b : List Char)
    (hfrom : "from ".data.isPrefixOf (trimChars line.data) = true)
    (hsplit : splitOnL ((trimChars line.data).drop 5) " import ".data = [a, b]) :
    parseLine line
      = some (PythonImport.ModuleWithMember ⟨trimChars a⟩ ⟨trimChars b⟩) := by
  have himp := fromLine_not_import (trimChars line.data) hfrom
  simp [parseLine, himp, hfrom, hsplit]

lemma parseLine_skip (line : String)
    (h1 : "import ".data.isPrefixOf (trimChars line.data) = false)
    (h2 : "from ".data.isPrefixOf (trimChars line.data) = false) :
    parseLine line = none := by
  simp [parseLine, h1, h2]

lemma parseLine_from_skip (line : String)
    (hfrom : "from ".data.isPrefixOf (trimChars line.data) = true)
    (hlen : (splitOnL ((trimChars line.data).drop 5) " import ".data).length ≠ 2) :
    parseLine line = none := by
  have himp := fromLine_not_import (trimChars line.data) hfrom
  rcases hp : splitOnL ((trimChars line.data).drop 5) " import ".data
    with _ | ⟨a, _ | ⟨b, _ | ⟨c, tl⟩⟩⟩
  · simp [parseLine, himp, hfrom, hp]
  · simp [parseLine, himp, hfrom, hp]
  · exact absurd (by rw [hp]; rfl) hlen
  · simp [parseLine, himp, hfrom, hp]

/-- An `import ` line is parsed whole: whatever the remainder contains
(dots, commas, even the word `import`), the module name is the trimmed
remainder, never split. -/
lemma parseLine_import_whole (rest : String)
    (h : ∃ c ∈ rest.data, ¬ Char.isWhitespace c) :
    parseLine ⟨"import ".data ++ rest.data⟩
      = some (PythonImport.ModuleOnly ⟨trimChars rest.data⟩) := by
  have hdata : (⟨"import ".data ++ rest.data⟩ : String).data
      = "import ".data ++ rest.data := rfl
  have htrim : trimChars ((⟨"import ".data ++ rest.data⟩ : String).data)
      = "import ".data ++ trimRightChars rest.data := by
    rw [hdata]
    exact trimChars_import_append rest.data h
  have hpre : "import ".data.isPrefixOf
      (trimChars ((⟨"import ".data ++ rest.data⟩ : String).data)) = true := by
    rw [htrim]
    simp
  rw [parseLine_import_case _ hpre]
  have hdrop : (trimChars ((⟨"import ".data ++ rest.data⟩ : String).data)).drop 7
      = trimRightChars rest.data := by
    rw [htrim]
    rfl
  rw [hdrop, trimChars_trimRightChars]

/-- A well-formed `from X import Y` line (no space inside `X`, no whitespace
inside non-empty `Y`) is parsed into the two trimmed parts. -/
lemma parseLine_from_whole (x y : String)
    (hx : ∀ c ∈ x.data, c ≠ ' ')
    (hyw : ∀ c ∈ y.data, ¬ Char.isWhitespace c)
    (hyne : y.data ≠ []) :
    parseLine ⟨"from ".data ++ (x.data ++ (" import ".data ++ y.data))⟩
      = some (PythonImport.ModuleWithMember ⟨trimChars x.data⟩ ⟨trimChars y.data⟩) := by
  have hdata : (⟨"from ".data ++ (x.data ++ (" import ".data ++ y.data))⟩ : String).data
      = "from ".data ++ (x.data ++ (" import ".data ++ y.data)) := rfl
  have htrim : trimChars ((⟨"from ".data ++ (x.data ++ (" import ".data ++ y.data))⟩ : String).data)
      = "from ".data ++ (x.data ++ (" import ".data ++ y.data)) := by
    rw [hdata]
    exact trimChars_from_line x.data y.data hyw hyne
  have hfrom : "from ".data.isPrefixOf
      (trimChars ((⟨"from ".data ++ (x.data ++ (" import ".data ++ y.data))⟩ : String).data))
      = true := by
    rw [htrim]
    simp
  have hdrop : (trimChars ((⟨"from ".data ++ (x.data ++ (" import ".data ++ y.data))⟩ : String).data)).drop 5
      = x.data ++ (" import ".data ++ y.data) := by
    rw [htrim]
    rfl
  have hys : ∀ c ∈ y.data, c ≠ ' ' := by
    intro c hc he
    exact hyw c hc (by rw [he]; decide)
  have hsplit : splitOnL
      ((trimChars ((⟨"from ".data ++ (x.data ++ (" import ".data ++ y.data))⟩ : String).data)).drop 5)
      " import ".data = [x.data, y.data] := by
    rw [hdrop]
    rw [show (" import ".data : List Char) = ' ' :: "import ".data from rfl]
    exact splitOnL_two x.data y.data "import ".data ' ' hx hys
  exact parseLine_from_case _ x.data y.data hfrom hsplit

/-- C5: after trimming, an `import `-prefixed line yields a module-only
declaration of the trimmed remainder (the remainder is taken whole — never
split on any character, as the second conjunct shows for an arbitrary
remainder); a `from `-prefixed line whose remainder splits on the literal
`" import "` into exactly two parts yields a module-with-member import of
the two trimmed parts (fourth conjunct: concrete well-formed lines); every
other line — neither prefix, or a `from ` line with a part count other than
two — is skipped; and extraction is order-preserving with duplicates kept
(it distributes over concatenation of the line list). -/
theorem C5_parse :
    (∀ line : String, "import ".data.isPrefixOf (trimChars line.data) = true →
      parseLine line = some (PythonImport.ModuleOnly
        ⟨trimChars ((trimChars line.data).drop 7)⟩)) ∧
    (∀ rest : String, (∃ c ∈ rest.data, ¬ Char.isWhitespace c) →
      parseLine ⟨"import ".data ++ rest.data⟩
        = some (PythonImport.ModuleOnly ⟨trimChars rest.data⟩)) ∧
    (∀ (line : String) (a b : List Char),
      "from ".data.isPrefixOf (trimChars line.data) = true →
      splitOnL ((trimChars line.data).drop 5) " import ".data = [a, b] →
      parseLine line
        = some (PythonImport.ModuleWithMember ⟨trimChars a⟩ ⟨trimChars b⟩)) ∧
    (∀ x y : String, (∀ c ∈ x.data, c ≠ ' ') →
      (∀ c ∈ y.data, ¬ Char.isWhitespace c) → y.data ≠ [] →
      parseLine ⟨"from ".data ++ (x.data ++ (" import ".data ++ y.data))⟩
        = some (PythonImport.ModuleWithMember ⟨trimChars x.data⟩ ⟨trimChars y.data⟩)) ∧
    (∀ line : String, "import ".data.isPrefixOf (trimChars line.data) = false →
      "from ".data.isPrefixOf (trimChars line.data) = false →
      parseLine line = none) ∧
    (∀ line : String, "from ".data.isPrefixOf (trimChars line.data) = true →
      (splitOnL ((trimChars line.data).drop 5) " import ".data).length ≠ 2 →
      parseLine line = none) ∧
    (∀ (l1 l2 : List String),
      parse_python_file (l1 ++ l2) = parse_python_file l1 ++ parse_python_file l2) :=
  ⟨parseLine_import_case, parseLine_import_whole, parseLine_from_case,
    parseLine_from_whole, parseLine_skip, parseLine_from_skip,
    fun l1 l2 => by simp [parse_python_file, List.filterMap_append]⟩

/-- C5 witness: `import numpy, os` — a remainder holding a comma, a space
and two names — is extracted whole as one module-only import. -/
theorem C5_witness :
    parseLine ⟨"import ".data ++ "numpy, os".data⟩
      = some (PythonImport.ModuleOnly ⟨trimChars "numpy, os".data⟩) :=
  C5_parse.2.1 "numpy, os" (by decide)
